import Mathlib

/-!
Verification of the slice-geometry core of the split_image repository.

The Python sources are embedded shallowly: Python ints become Int, Python
lists become List, functions that can raise become Except-valued functions.
Exceptions are modelled by the structured type PyError below: a ValueError
raised on overflow carries the two reported numbers and the surface-specific
hint text; validation ValueErrors carry their message; the ZeroDivisionError
implicitly raised by Python's floor division by zero gets its own constructor.
-/

/-- Errors raised by the embedded Python code.  The overflow constructor
models the ValueError raised by build_slices when the size sum exceeds the
extent: it reports the sum, the total and the surface-specific hint text. -/
inductive PyError where
  | overflow (sum_sizes total : Int) (hint : String)
  | validation (msg : String)
  | zeroDivision
deriving DecidableEq

/-- Loop of the clip branch of build_slices (src/split_image.py lines 66-75):
walk the sizes accumulating start, clamp end at total, stop before emitting a
range whose clamped end is at or below start, and stop after emitting once
start has reached total. -/
def clip_loop (total : Int) : Int → List Int → List (Int × Int)
  | _, [] => []
  | start, sz :: rest =>
    let e := start + sz
    let e := if e > total then total else e
    if e ≤ start then []
    else (start, e) :: (if e ≥ total then [] else clip_loop total e rest)

/-- Loop of the no-overflow branch of build_slices (src/split_image.py lines
79-82): emit (start, start+size) for each size, threading start; the second
component is the final value of start. -/
def noover_loop : Int → List Int → List (Int × Int) × Int
  | start, [] => ([], start)
  | start, sz :: rest =>
    ((start, start + sz) :: (noover_loop (start + sz) rest).1, (noover_loop (start + sz) rest).2)

/-- Embedding of build_slices from src/split_image.py lines 57-90. -/
def build_slices (total : Int) (sizes : List Int) (append_remainder clip_excess : Bool) :
    Except PyError (List (Int × Int)) :=
  let sum_sizes := sizes.sum
  if sum_sizes > total then
    if clip_excess = false then
      .error (.overflow sum_sizes total "可加 --clip-excess 允许裁边")
    else
      .ok (clip_loop total 0 sizes)
  else
    let slices := (noover_loop 0 sizes).1
    let start := (noover_loop 0 sizes).2
    let slices :=
      if sum_sizes < total ∧ append_remainder = true then slices ++ [(start, total)]
      else slices
    .ok (slices.filter (fun r => r.2 > r.1))

/-- Loop of the clip branch of the duplicated build_slices in
src/gui_split_image.py lines 40-51; textually the same algorithm as
clip_loop. -/
def gui_clip_loop (total : Int) : Int → List Int → List (Int × Int)
  | _, [] => []
  | start, sz :: rest =>
    let e := start + sz
    let e := if e > total then total else e
    if e ≤ start then []
    else (start, e) :: (if e ≥ total then [] else gui_clip_loop total e rest)

/-- Loop of the no-overflow branch of the duplicated build_slices in
src/gui_split_image.py lines 53-56. -/
def gui_noover_loop : Int → List Int → List (Int × Int) × Int
  | start, [] => ([], start)
  | start, sz :: rest =>
    ((start, start + sz) :: (gui_noover_loop (start + sz) rest).1,
     (gui_noover_loop (start + sz) rest).2)

/-- Embedding of the duplicated build_slices from src/gui_split_image.py
lines 33-63; it differs from the CLI version only in the hint text of the
overflow error message. -/
def gui_build_slices (total : Int) (sizes : List Int) (append_remainder clip_excess : Bool) :
    Except PyError (List (Int × Int)) :=
  let sum_sizes := sizes.sum
  if sum_sizes > total then
    if clip_excess = false then
      .error (.overflow sum_sizes total "可勾选“超过裁边”以允许裁边")
    else
      .ok (gui_clip_loop total 0 sizes)
  else
    let slices := (gui_noover_loop 0 sizes).1
    let start := (gui_noover_loop 0 sizes).2
    let slices :=
      if sum_sizes < total ∧ append_remainder = true then slices ++ [(start, total)]
      else slices
    .ok (slices.filter (fun r => r.2 > r.1))

/-- Embedding of sizes_average from src/split_image.py lines 51-55.  Python's
floor division and modulo are Int.fdiv and Int.fmod; Python raises
ZeroDivisionError when count is 0, modelled by the explicit test; Python's
range(count) is empty for negative count, which count.toNat reproduces. -/
def sizes_average (total count : Int) : Except PyError (List Int) :=
  if count = 0 then .error .zeroDivision
  else
    let base := Int.fdiv total count
    let rem := Int.fmod total count
    .ok ((List.range count.toNat).map (fun i : Nat => base + (if (i : Int) < rem then 1 else 0)))

/-- Sizing mode of process_one_image and of the command line. -/
inductive Mode where
  | average
  | pixels
deriving DecidableEq

/-- Embedding of the size-resolution step of process_one_image,
src/split_image.py lines 112-121: in average mode a count at or below zero
raises a ValueError before sizes_average is ever invoked; in pixels mode an
empty list raises a ValueError. -/
def resolve_sizes (mode : Mode) (extent count : Int) (pixels : List Int) :
    Except PyError (List Int) :=
  match mode with
  | .average =>
    if count ≤ 0 then .error (.validation "average 模式需要 --count 且 > 0")
    else sizes_average extent count
  | .pixels =>
    if pixels = [] then .error (.validation "pixels 模式需要 --pixels")
    else .ok pixels

/-- Model of Python str.split on a comma: split a character list at every
comma, keeping empty pieces, so the result is always nonempty. -/
def split_commas : List Char → List (List Char)
  | [] => [[]]
  | c :: rest =>
    match split_commas rest with
    | [] => [[]]
    | t :: ts => if c = ',' then [] :: t :: ts else (c :: t) :: ts

/-- Model of Python str.strip with no argument: remove leading and trailing
whitespace characters. -/
def strip_chars (cs : List Char) : List Char :=
  ((cs.dropWhile Char.isWhitespace).reverse.dropWhile Char.isWhitespace).reverse

/-- Token list of parse_pixels, src/split_image.py line 38: split on commas,
strip whitespace, discard empty tokens. -/
def pixel_tokens (s : String) : List (List Char) :=
  ((split_commas s.data).map strip_chars).filter (fun p => p ≠ [])

/-- Model of Python str.isdigit restricted to ASCII text: nonempty and all
characters are decimal digits. -/
def is_digits (cs : List Char) : Bool :=
  !cs.isEmpty && cs.all (fun c => c.isDigit)

/-- Model of Python int applied to an all-digit string. -/
def digits_to_nat (cs : List Char) : Nat :=
  cs.foldl (fun a c => 10 * a + (c.toNat - 48)) 0

/-- Loop body of parse_pixels, src/split_image.py lines 40-46: the first
token that is not all digits, or whose value is not strictly positive,
aborts with the ValueError naming it, as in the source. -/
def parse_tokens : List (List Char) → Except PyError (List Int)
  | [] => .ok []
  | p :: rest =>
    if is_digits p = false then
      .error (.validation ("像素值必须为正整数: " ++ String.mk p))
    else
      let val : Int := (digits_to_nat p : Int)
      if val ≤ 0 then .error (.validation ("像素值必须大于0: " ++ String.mk p))
      else
        match parse_tokens rest with
        | .error e => .error e
        | .ok tl => .ok (val :: tl)

/-- Embedding of parse_pixels from src/split_image.py lines 37-49. -/
def parse_pixels (s : String) : Except PyError (List Int) :=
  match parse_tokens (pixel_tokens s) with
  | .error e => .error e
  | .ok sizes => if sizes = [] then .error (.validation "像素列表为空") else .ok sizes

/-- Index of the last occurrence of a character in a character list, with the
Python convention that -1 means absent (str.rfind). -/
def rfind (cs : List Char) (c : Char) : Int :=
  match cs.reverse.findIdx? (fun x => x = c) with
  | none => -1
  | some i => (cs.length : Int) - 1 - (i : Int)

/-- Extension part of os.path.splitext as used by is_image_file: the suffix
from the last dot after the last path separator, unless every character
between the separator and that dot is itself a dot (leading-dot basenames
such as .bashrc have no extension). -/
def splitext_ext (p : String) : List Char :=
  let cs := p.data
  let sepIndex := rfind cs '/'
  let dotIndex := rfind cs '.'
  if sepIndex < dotIndex then
    if ((cs.drop (sepIndex + 1).toNat).take (dotIndex - (sepIndex + 1)).toNat).all
        (fun c => c = '.') then []
    else cs.drop dotIndex.toNat
  else []

/-- Model of Python str.lower restricted to ASCII text. -/
def lower_chars (cs : List Char) : List Char :=
  cs.map Char.toLower

/-- Embedding of is_image_file from src/split_image.py lines 33-35. -/
def is_image_file (name : String) : Bool :=
  let ext := lower_chars (splitext_ext name)
  [".jpg".data, ".jpeg".data, ".png".data, ".bmp".data, ".webp".data, ".tiff".data].contains ext

/-- Single-file branch of the task enumeration in main, src/split_image.py
lines 176-180: a file whose extension is not recognized raises a ValueError,
otherwise the file itself is the one task.  The directory branch depends on
the filesystem and is not embedded. -/
def main_single_file_tasks (in_path : String) : Except PyError (List String) :=
  if is_image_file in_path = false then
    .error (.validation "输入必须是图片文件或包含图片的目录")
  else .ok [in_path]

/-- Single-file branch of list_image_tasks, src/gui_split_image.py lines
28-30: the file is enumerated only if its extension is recognized; otherwise
the task list is silently empty.  The directory branch depends on the
filesystem and is not embedded. -/
def list_image_tasks_file (input_path : String) : List String :=
  if is_image_file input_path then [input_path] else []

/-- Spec-side walk of the clip branch, written from the claim wording: emit
(start, min (start+size) T), stop as soon as the clamped end is at or below
start or start reaches T, dropping all remaining sizes. -/
def clip_walk (total : Int) : Int → List Int → List (Int × Int)
  | _, [] => []
  | start, sz :: rest =>
    let e := min (start + sz) total
    if e ≤ start then []
    else (start, e) :: (if e = total then [] else clip_walk total e rest)

deriving instance DecidableEq for Except

/-! ### Helper lemmas about the loops -/

/-- The duplicated GUI clip loop computes the same function as the CLI one. -/
theorem gui_clip_loop_eq (total : Int) :
    ∀ (sizes : List Int) (start : Int),
      gui_clip_loop total start sizes = clip_loop total start sizes := by
  intro sizes
  induction sizes with
  | nil => intro start; rfl
  | cons sz rest ih =>
    intro start
    simp only [gui_clip_loop, clip_loop, ih]

/-- The duplicated GUI no-overflow loop computes the same function as the CLI
one. -/
theorem gui_noover_loop_eq :
    ∀ (sizes : List Int) (start : Int), gui_noover_loop start sizes = noover_loop start sizes := by
  intro sizes
  induction sizes with
  | nil => intro start; rfl
  | cons sz rest ih =>
    intro start
    simp only [gui_noover_loop, noover_loop, ih]

/-- Every range the clip loop emits starts no earlier than the running start,
is strictly increasing, and ends at or before the total. -/
theorem clip_loop_mem (total : Int) :
    ∀ (sizes : List Int) (start : Int) (r : Int × Int),
      r ∈ clip_loop total start sizes → start ≤ r.1 ∧ r.1 < r.2 ∧ r.2 ≤ total := by
  intro sizes
  induction sizes with
  | nil => intro start r h; simp [clip_loop] at h
  | cons sz rest ih =>
    intro start r h
    simp only [clip_loop] at h
    by_cases hstop : (if start + sz > total then total else start + sz) ≤ start
    · simp [hstop] at h
    · rw [if_neg hstop] at h
      rcases List.mem_cons.mp h with hr | hr
      · subst hr
        refine ⟨le_refl _, lt_of_not_le hstop, ?_⟩
        split <;> omega
      · by_cases hfin : (if start + sz > total then total else start + sz) ≥ total
        · simp [hfin] at hr
        · rw [if_neg hfin] at hr
          have := ih _ r hr
          exact ⟨le_trans (le_of_lt (lt_of_not_le hstop)) this.1, this.2.1, this.2.2⟩

/-- The first range the clip loop emits starts at the running start. -/
theorem clip_loop_head (total : Int) :
    ∀ (sizes : List Int) (start : Int) (r : Int × Int),
      (clip_loop total start sizes).head? = some r → r.1 = start := by
  intro sizes
  induction sizes with
  | nil => intro start r h; simp [clip_loop] at h
  | cons sz rest ih =>
    intro start r h
    simp only [clip_loop] at h
    by_cases hstop : (if start + sz > total then total else start + sz) ≤ start
    · simp [hstop] at h
    · rw [if_neg hstop] at h
      simp only [List.head?_cons, Option.some.injEq] at h
      subst h
      rfl

/-- Consecutive ranges emitted by the clip loop are contiguous. -/
theorem clip_loop_chain (total : Int) :
    ∀ (sizes : List Int) (start : Int),
      List.Chain' (fun a b : Int × Int => b.1 = a.2) (clip_loop total start sizes) := by
  intro sizes
  induction sizes with
  | nil => intro start; simp [clip_loop]
  | cons sz rest ih =>
    intro start
    simp only [clip_loop]
    by_cases hstop : (if start + sz > total then total else start + sz) ≤ start
    · simp [hstop]
    · rw [if_neg hstop]
      by_cases hfin : (if start + sz > total then total else start + sz) ≥ total
      · simp [hfin]
      · rw [if_neg hfin]
        refine List.chain'_cons'.mpr ⟨?_, ih _⟩
        intro y hy
        exact clip_loop_head total rest _ y hy

/-- The clip loop of the source is the clamped walk described by the spec. -/
theorem clip_loop_eq_walk (total : Int) :
    ∀ (sizes : List Int) (start : Int),
      clip_loop total start sizes = clip_walk total start sizes := by
  intro sizes
  induction sizes with
  | nil => intro start; rfl
  | cons sz rest ih =>
    intro start
    simp only [clip_loop, clip_walk]
    have he : (if start + sz > total then total else start + sz) = min (start + sz) total := by
      rw [min_def]; split <;> split <;> omega
    rw [he]
    by_cases hstop : min (start + sz) total ≤ start
    · simp [hstop]
    · rw [if_neg hstop, if_neg hstop]
      by_cases hfin : min (start + sz) total = total
      · simp [hfin]
      · have hmin : min (start + sz) total ≤ total := min_le_right _ _
        rw [if_neg (by omega : ¬min (start + sz) total ≥ total), if_neg hfin, ih]

/-- Final accumulator of the no-overflow loop: start plus the sum of sizes. -/
theorem noover_loop_snd :
    ∀ (sizes : List Int) (start : Int), (noover_loop start sizes).2 = start + sizes.sum := by
  intro sizes
  induction sizes with
  | nil => intro start; simp [noover_loop]
  | cons sz rest ih =>
    intro start
    simp only [noover_loop, ih, List.sum_cons]
    ring

/-- Ranges of the no-overflow loop are the pairs of consecutive running sums
of the sizes. -/
theorem noover_loop_fst :
    ∀ (sizes : List Int) (start : Int),
      (noover_loop start sizes).1 =
        (List.range sizes.length).map
          (fun i => (start + (sizes.take i).sum, start + (sizes.take (i + 1)).sum)) := by
  intro sizes
  induction sizes with
  | nil => intro start; simp [noover_loop]
  | cons sz rest ih =>
    intro start
    simp only [noover_loop, ih, List.length_cons, List.range_succ_eq_map, List.map_cons,
      List.map_map]
    congr 1
    · simp
    · apply List.map_congr_left
      intro i _
      simp only [Function.comp_apply, List.take_succ_cons, List.sum_cons]
      rw [Prod.mk.injEq]
      constructor <;> ring

/-- With positive sizes, every range of the no-overflow loop starts no
earlier than the running start, is strictly increasing, and ends at or
before start plus the sum of the sizes. -/
theorem noover_loop_mem :
    ∀ (sizes : List Int) (start : Int) (r : Int × Int),
      (∀ s ∈ sizes, 0 < s) → r ∈ (noover_loop start sizes).1 →
        start ≤ r.1 ∧ r.1 < r.2 ∧ r.2 ≤ start + sizes.sum := by
  intro sizes
  induction sizes with
  | nil => intro start r _ h; simp [noover_loop] at h
  | cons sz rest ih =>
    intro start r hpos h
    have hsz : 0 < sz := hpos sz (List.mem_cons_self sz rest)
    have hrest : ∀ s ∈ rest, 0 < s := fun s hs => hpos s (List.mem_cons_of_mem sz hs)
    have hsum : 0 ≤ rest.sum := List.sum_nonneg (fun s hs => le_of_lt (hrest s hs))
    simp only [noover_loop] at h
    rcases List.mem_cons.mp h with hr | hr
    · subst hr
      simp only [List.sum_cons]
      omega
    · have := ih (start + sz) r hrest hr
      simp only [List.sum_cons]
      omega

/-- Consecutive ranges of the no-overflow loop are contiguous. -/
theorem noover_loop_chain :
    ∀ (sizes : List Int) (start : Int),
      List.Chain' (fun a b : Int × Int => b.1 = a.2) (noover_loop start sizes).1 := by
  intro sizes
  induction sizes with
  | nil => intro start; simp [noover_loop]
  | cons sz rest ih =>
    intro start
    simp only [noover_loop]
    refine List.chain'_cons'.mpr ⟨?_, ih _⟩
    intro y hy
    cases rest with
    | nil => simp [noover_loop] at hy
    | cons sz2 rest2 =>
      simp only [noover_loop, List.head?_cons, Option.mem_some_iff] at hy
      subst hy
      rfl

/-- The last range of the no-overflow loop ends at start plus the sum. -/
theorem noover_loop_last :
    ∀ (sizes : List Int) (start : Int) (r : Int × Int),
      (noover_loop start sizes).1.getLast? = some r → r.2 = start + sizes.sum := by
  intro sizes
  induction sizes with
  | nil => intro start r h; simp [noover_loop] at h
  | cons sz rest ih =>
    intro start r h
    cases rest with
    | nil =>
      simp only [noover_loop, List.getLast?_singleton, Option.some.injEq] at h
      subst h
      simp
    | cons sz2 rest2 =>
      simp only [noover_loop, List.getLast?_cons_cons] at h
      have hr := ih (start + sz) r (by simp only [noover_loop]; exact h)
      simp only [List.sum_cons] at hr ⊢
      omega

/-- The filtered length of the no-overflow loop output is the number of
strictly positive sizes. -/
theorem noover_loop_filter_length :
    ∀ (sizes : List Int) (start : Int),
      ((noover_loop start sizes).1.filter (fun r => r.2 > r.1)).length =
        (sizes.filter (fun s => 0 < s)).length := by
  intro sizes
  induction sizes with
  | nil => intro start; simp [noover_loop]
  | cons sz rest ih =>
    intro start
    simp only [noover_loop, List.filter_cons]
    by_cases h : 0 < sz
    · rw [if_pos (by simpa using h), if_pos (by simpa using h)]
      simp [ih]
    · rw [if_neg (by simpa using h), if_neg (by simpa using h)]
      exact ih _

/-- The first range of the no-overflow loop starts at the running start. -/
theorem noover_loop_head :
    ∀ (sizes : List Int) (start : Int) (r : Int × Int),
      (noover_loop start sizes).1.head? = some r → r.1 = start := by
  intro sizes start r h
  cases sizes with
  | nil => simp [noover_loop] at h
  | cons sz rest =>
    simp only [noover_loop, List.head?_cons, Option.some.injEq] at h
    subst h
    rfl

/-- Reduction of build_slices in the no-overflow case with positive sizes:
the zero-width filter is the identity and the remainder range is appended
exactly when the sum falls short of the total and appending is enabled. -/
theorem build_slices_no_overflow (T : Int) (sizes : List Int) (ar ce : Bool)
    (hpos : ∀ s ∈ sizes, 0 < s) (hsum : sizes.sum ≤ T) :
    build_slices T sizes ar ce =
      .ok ((noover_loop 0 sizes).1 ++
        (if sizes.sum < T ∧ ar = true then [(sizes.sum, T)] else [])) := by
  unfold build_slices
  rw [if_neg (not_lt.mpr hsum)]
  rw [noover_loop_snd, zero_add]
  dsimp only
  by_cases hc : sizes.sum < T ∧ ar = true
  · rw [if_pos hc, if_pos hc]
    congr 1
    apply List.filter_eq_self.mpr
    intro r hr
    rcases List.mem_append.mp hr with hr | hr
    · have := noover_loop_mem sizes 0 r hpos hr
      simpa using this.2.1
    · simp only [List.mem_singleton] at hr
      subst hr
      simpa using hc.1
  · rw [if_neg hc, if_neg hc, List.append_nil]
    congr 1
    apply List.filter_eq_self.mpr
    intro r hr
    have := noover_loop_mem sizes 0 r hpos hr
    simpa using this.2.1

/-- Reduction of build_slices in the overflow case with clipping enabled. -/
theorem build_slices_clip (T : Int) (sizes : List Int) (ar : Bool)
    (hsum : T < sizes.sum) :
    build_slices T sizes ar true = .ok (clip_loop T 0 sizes) := by
  unfold build_slices
  rw [if_pos hsum]
  simp

/-- Reduction of build_slices in the overflow case with clipping disabled. -/
theorem build_slices_overflow_error (T : Int) (sizes : List Int) (ar : Bool)
    (hsum : T < sizes.sum) :
    build_slices T sizes ar false =
      .error (.overflow sizes.sum T "可加 --clip-excess 允许裁边") := by
  unfold build_slices
  rw [if_pos hsum]
  simp

/-! ### Helper lemmas about sizes_average -/

/-- A range-map of a threshold function where the threshold is never hit. -/
theorem range_map_const_of_le (n r : Nat) (b : Int) (h : n ≤ r) :
    (List.range n).map (fun i => if i < r then b + 1 else b) = List.replicate n (b + 1) := by
  induction n with
  | zero => simp
  | succ k ih =>
    rw [List.range_succ, List.map_append, ih (by omega), List.replicate_succ']
    simp [if_pos (by omega : k < r)]

/-- A range-map of a threshold function splits into two replicate blocks. -/
theorem range_map_split (n r : Nat) (b : Int) (h : r ≤ n) :
    (List.range n).map (fun i => if i < r then b + 1 else b) =
      List.replicate r (b + 1) ++ List.replicate (n - r) b := by
  induction n with
  | zero =>
    have : r = 0 := by omega
    simp [this]
  | succ k ih =>
    by_cases hr : r ≤ k
    · rw [List.range_succ, List.map_append, ih hr]
      have : k + 1 - r = (k - r) + 1 := by omega
      rw [this, List.replicate_succ']
      simp [if_neg (by omega : ¬k < r), List.append_assoc]
    · have : r = k + 1 := by omega
      subst this
      rw [range_map_const_of_le _ _ _ (le_refl _)]
      simp

/-- Computation of sizes_average on a nonnegative total and positive count,
phrased over naturals. -/
theorem sizes_average_nat (m n : Nat) (hn : 0 < n) :
    sizes_average (m : Int) (n : Int) =
      .ok (List.replicate (m % n) ((m / n : Nat) + 1 : Int) ++
        List.replicate (n - m % n) ((m / n : Nat) : Int)) := by
  unfold sizes_average
  rw [if_neg (by exact_mod_cast hn.ne' : ¬(n : Int) = 0)]
  rw [← Int.ofNat_fdiv, ← Int.ofNat_fmod, Int.toNat_ofNat]
  have hmap : (List.range n).map
      (fun i : Nat => ((m / n : Nat) : Int) + (if (i : Int) < ((m % n : Nat) : Int) then 1 else 0)) =
      (List.range n).map (fun i : Nat => if i < m % n then ((m / n : Nat) : Int) + 1
        else ((m / n : Nat) : Int)) := by
    apply List.map_congr_left
    intro i _
    by_cases hi : i < m % n
    · rw [if_pos (by exact_mod_cast hi), if_pos hi]
    · rw [if_neg (by exact_mod_cast hi), if_neg hi, add_zero]
  dsimp only
  rw [hmap, range_map_split n (m % n) _ (le_of_lt (Nat.mod_lt m hn))]

/-- Computation of sizes_average on a nonnegative total and positive count,
phrased with the floor division and modulo of the source. -/
theorem sizes_average_spec (T N : Int) (hT : 0 ≤ T) (hN : 0 < N) :
    sizes_average T N =
      .ok (List.replicate (T.fmod N).toNat (T.fdiv N + 1) ++
        List.replicate (N.toNat - (T.fmod N).toNat) (T.fdiv N)) := by
  obtain ⟨m, rfl⟩ : ∃ m : Nat, T = (m : Int) := ⟨T.toNat, (Int.toNat_of_nonneg hT).symm⟩
  obtain ⟨n, rfl⟩ : ∃ n : Nat, N = (n : Int) := ⟨N.toNat, (Int.toNat_of_nonneg hN.le).symm⟩
  have hn : 0 < n := by exact_mod_cast hN
  rw [sizes_average_nat m n hn, ← Int.ofNat_fdiv, ← Int.ofNat_fmod, Int.toNat_ofNat,
    Int.toNat_ofNat]

/-- Sum of the two replicate blocks produced by sizes_average. -/
theorem avg_list_sum (m n : Nat) (hn : 0 < n) :
    (List.replicate (m % n) ((m / n : Nat) + 1 : Int) ++
      List.replicate (n - m % n) ((m / n : Nat) : Int)).sum = (m : Int) := by
  have hr : m % n < n := Nat.mod_lt m hn
  rw [List.sum_append, List.sum_replicate, List.sum_replicate, nsmul_eq_mul, nsmul_eq_mul]
  rw [(Nat.cast_sub hr.le : ((n - m % n : Nat) : Int) = (n : Int) - ((m % n : Nat) : Int))]
  have key : ((m % n : Nat) : Int) * (((m / n : Nat) : Int) + 1) +
      ((n : Int) - ((m % n : Nat) : Int)) * ((m / n : Nat) : Int) =
      (n : Int) * ((m / n : Nat) : Int) + ((m % n : Nat) : Int) := by ring
  rw [key]
  exact_mod_cast Nat.div_add_mod m n

/-- A contiguous list of strictly increasing ranges has strictly increasing
starts, pairwise. -/
theorem chain_mono_pairwise :
    ∀ (L : List (Int × Int)), List.Chain' (fun a b : Int × Int => b.1 = a.2) L →
      (∀ r ∈ L, r.1 < r.2) → List.Pairwise (fun a b : Int × Int => a.1 < b.1) L := by
  intro L
  induction L with
  | nil => intro _ _; exact List.Pairwise.nil
  | cons a tl ih =>
    intro hchain hmem
    obtain ⟨hhead, htl⟩ := List.chain'_cons'.mp hchain
    have hp := ih htl (fun r hr => hmem r (List.mem_cons_of_mem a hr))
    refine List.pairwise_cons.mpr ⟨?_, hp⟩
    intro b hb
    cases tl with
    | nil => simp at hb
    | cons y ys =>
      have h1 : y.1 = a.2 := hhead y (by simp)
      have h2 : a.1 < a.2 := hmem a (List.mem_cons_self a _)
      have hy : a.1 < y.1 := by omega
      rcases List.mem_cons.mp hb with rfl | hb2
      · exact hy
      · exact lt_trans hy ((List.pairwise_cons.mp hp).1 b hb2)

/-- When every token is all-digits with positive value, parse_tokens returns
the parsed values in order. -/
theorem parse_tokens_ok :
    ∀ (toks : List (List Char)),
      (∀ p ∈ toks, is_digits p = true ∧ 0 < digits_to_nat p) →
      parse_tokens toks = .ok (toks.map (fun p => (digits_to_nat p : Int))) := by
  intro toks
  induction toks with
  | nil => intro _; rfl
  | cons p rest ih =>
    intro h
    have hp := h p (List.mem_cons_self p rest)
    have hrest := fun q hq => h q (List.mem_cons_of_mem p hq)
    simp only [parse_tokens]
    rw [if_neg (by simp [hp.1]), if_neg (not_le.mpr (Int.natCast_pos.mpr hp.2)),
      ih hrest]
    rfl

/-- When some token is bad, parse_tokens fails with a validation error whose
message names an offending token. -/
theorem parse_tokens_first_bad :
    ∀ (toks : List (List Char)),
      (∃ p ∈ toks, ¬(is_digits p = true ∧ 0 < digits_to_nat p)) →
      ∃ m, parse_tokens toks = .error (.validation m) ∧
        ∃ p ∈ toks, (m = "像素值必须为正整数: " ++ String.mk p ∨
          m = "像素值必须大于0: " ++ String.mk p) ∧
          ¬(is_digits p = true ∧ 0 < digits_to_nat p) := by
  intro toks
  induction toks with
  | nil =>
    rintro ⟨p, hp, -⟩
    simp at hp
  | cons p rest ih =>
    intro h
    by_cases hp : is_digits p = true ∧ 0 < digits_to_nat p
    · have hrest : ∃ q ∈ rest, ¬(is_digits q = true ∧ 0 < digits_to_nat q) := by
        obtain ⟨q, hq, hbad⟩ := h
        rcases List.mem_cons.mp hq with rfl | hq2
        · exact absurd hp hbad
        · exact ⟨q, hq2, hbad⟩
      obtain ⟨m, herr, q, hq, hcase⟩ := ih hrest
      refine ⟨m, ?_, q, List.mem_cons_of_mem p hq, hcase⟩
      simp only [parse_tokens]
      rw [if_neg (by simp [hp.1]), if_neg (not_le.mpr (Int.natCast_pos.mpr hp.2)), herr]
    · by_cases hd : is_digits p = true
      · have hz : digits_to_nat p = 0 := by
          by_contra hnz
          exact hp ⟨hd, Nat.pos_of_ne_zero hnz⟩
        refine ⟨"像素值必须大于0: " ++ String.mk p, ?_, p, List.mem_cons_self p rest,
          Or.inr rfl, hp⟩
        simp only [parse_tokens]
        rw [if_neg (by simp [hd]), if_pos (by simp [hz])]
      · refine ⟨"像素值必须为正整数: " ++ String.mk p, ?_, p, List.mem_cons_self p rest,
          Or.inl rfl, hp⟩
        simp only [parse_tokens]
        rw [if_pos (by revert hd; cases is_digits p <;> simp)]

/-! ### Claim theorems -/

/-- C1: for extent T at least 0, positive sizes with sum at most T and both
remainder flags, the planner returns exactly the consecutive prefix-sum
ranges, followed by one extra range (sum, T) exactly when sum < T and
append_remainder is true; when sum < T and append_remainder is false no
extra range is added and no error is raised. -/
theorem C1_no_overflow_plan (T : Int) (sizes : List Int) (ar ce : Bool)
    (_hT : 0 ≤ T) (hpos : ∀ s ∈ sizes, 0 < s) (hsum : sizes.sum ≤ T) :
    build_slices T sizes ar ce =
      .ok (((List.range sizes.length).map
          (fun i => ((sizes.take i).sum, (sizes.take (i + 1)).sum))) ++
        (if sizes.sum < T ∧ ar = true then [(sizes.sum, T)] else [])) := by
  rw [build_slices_no_overflow T sizes ar ce hpos hsum, noover_loop_fst]
  simp only [zero_add]

/-- C1 witness: the claim's example, T equal 10, sizes [3,3,3], remainder
appended. -/
theorem C1_witness :
    build_slices 10 [3, 3, 3] true false = Except.ok [(0, 3), (3, 6), (6, 9), (9, 10)] := by
  rw [C1_no_overflow_plan 10 [3, 3, 3] true false (by decide) (by decide) (by decide)]
  decide

/-- C2: for extent T at least 0 and positive sizes with sum above T, with
clipping enabled the planner returns exactly the clamped walk of the spec,
which never contains a zero-width range and ends at or before T, and the
append_remainder flag has no effect in this branch. -/
theorem C2_clip_branch (T : Int) (sizes : List Int) (ar : Bool) (_hT : 0 ≤ T)
    (_hpos : ∀ s ∈ sizes, 0 < s) (hsum : T < sizes.sum) :
    build_slices T sizes ar true = .ok (clip_walk T 0 sizes) ∧
    (clip_walk T 0 sizes).all (fun r => r.1 < r.2 ∧ r.2 ≤ T) = true ∧
    build_slices T sizes true true = build_slices T sizes false true := by
  have hwalk := clip_loop_eq_walk T sizes 0
  refine ⟨?_, ?_, ?_⟩
  · rw [build_slices_clip T sizes ar hsum, hwalk]
  · rw [← hwalk, List.all_eq_true]
    intro r hr
    have hm := clip_loop_mem T sizes 0 r hr
    simp only [decide_eq_true_eq]
    exact ⟨hm.2.1, hm.2.2⟩
  · rw [build_slices_clip T sizes true hsum, build_slices_clip T sizes false hsum]

/-- C2 witness: the spec's example with sum 500 and extent 400: the third
segment is clipped away, the second truncated at 400. -/
theorem C2_witness :
    build_slices 400 [200, 200, 100] true true = Except.ok [(0, 200), (200, 400)] ∧
    (clip_walk 400 0 [200, 200, 100]).all (fun r => r.1 < r.2 ∧ r.2 ≤ 400) = true ∧
    build_slices 400 [200, 200, 100] true true = build_slices 400 [200, 200, 100] false true := by
  obtain ⟨h1, h2, h3⟩ := C2_clip_branch 400 [200, 200, 100] true (by decide) (by decide) (by decide)
  exact ⟨by rw [h1]; decide, h2, h3⟩

/-- C3: for extent T at least 0 and sizes whose sum exceeds T, with clipping
disabled the planner fails with the overflow error reporting both the sum
and T, returning no partial plan. -/
theorem C3_overflow_error (T : Int) (sizes : List Int) (ar : Bool)
    (_hT : 0 ≤ T) (hsum : T < sizes.sum) :
    build_slices T sizes ar false =
      .error (.overflow sizes.sum T "可加 --clip-excess 允许裁边") :=
  build_slices_overflow_error T sizes ar hsum

/-- C3 witness: sum 500 exceeds extent 400 and clipping is off. -/
theorem C3_witness :
    build_slices 400 [200, 200, 100] true false =
      Except.error (.overflow 500 400 "可加 --clip-excess 允许裁边") := by
  rw [C3_overflow_error 400 [200, 200, 100] true (by decide) (by decide)]
  decide

/-- C4: for extent T at least 0 and count N above 0, the distributor returns
the front-loaded two-block list: T mod N entries of base+1 followed by the
rest equal to base, with length N, sum exactly T and no negative entry. -/
theorem C4_sizes_average_distribution (T N : Int) (hT : 0 ≤ T) (hN : 0 < N) :
    sizes_average T N =
      .ok (List.replicate (T.fmod N).toNat (T.fdiv N + 1) ++
        List.replicate (N.toNat - (T.fmod N).toNat) (T.fdiv N)) ∧
    (sizes_average T N).map List.length = .ok N.toNat ∧
    (sizes_average T N).map List.sum = .ok T ∧
    (sizes_average T N).map (fun l => l.all (fun x => 0 ≤ x)) = .ok true := by
  obtain ⟨m, rfl⟩ : ∃ m : Nat, T = (m : Int) := ⟨T.toNat, (Int.toNat_of_nonneg hT).symm⟩
  obtain ⟨n, rfl⟩ : ∃ n : Nat, N = (n : Int) := ⟨N.toNat, (Int.toNat_of_nonneg hN.le).symm⟩
  have hn : 0 < n := by exact_mod_cast hN
  have hr : m % n < n := Nat.mod_lt m hn
  have hspec := sizes_average_nat m n hn
  refine ⟨?_, ?_, ?_, ?_⟩
  · rw [hspec, ← Int.ofNat_fdiv, ← Int.ofNat_fmod, Int.toNat_ofNat, Int.toNat_ofNat]
  · rw [hspec]
    simp only [Except.map, List.length_append, List.length_replicate, Int.toNat_ofNat,
      Except.ok.injEq]
    omega
  · rw [hspec]
    simp only [Except.map, Except.ok.injEq]
    exact avg_list_sum m n hn
  · rw [hspec]
    simp only [Except.map, Except.ok.injEq]
    rw [List.all_eq_true]
    intro x hx
    have hb : (0 : Int) ≤ ((m / n : Nat) : Int) := Int.ofNat_nonneg _
    rcases List.mem_append.mp hx with hx | hx <;> rw [List.eq_of_mem_replicate hx] <;>
      simp only [decide_eq_true_eq] <;> omega

/-- C4 witness: 10 pixels over 3 parts gives [4, 3, 3]. -/
theorem C4_witness : sizes_average 10 3 = Except.ok [4, 3, 3] := by
  rw [(C4_sizes_average_distribution 10 3 (by decide) (by decide)).1]
  decide

/-- C5: any plan the planner returns for positive sizes is contiguous, has
strictly increasing starts, and every range is strictly increasing and ends
at or before the extent. -/
theorem C5_plan_invariants (T : Int) (sizes : List Int) (ar ce : Bool)
    (L : List (Int × Int)) (_hT : 0 ≤ T) (hpos : ∀ s ∈ sizes, 0 < s)
    (hok : build_slices T sizes ar ce = .ok L) :
    List.Chain' (fun a b : Int × Int => b.1 = a.2) L ∧
    List.Pairwise (fun a b : Int × Int => a.1 < b.1) L ∧
    L.all (fun r => r.1 < r.2 ∧ r.2 ≤ T) = true := by
  have main : List.Chain' (fun a b : Int × Int => b.1 = a.2) L ∧
      (∀ r ∈ L, r.1 < r.2 ∧ r.2 ≤ T) := by
    by_cases hsum : sizes.sum ≤ T
    · rw [build_slices_no_overflow T sizes ar ce hpos hsum] at hok
      have hL : L = (noover_loop 0 sizes).1 ++
          (if sizes.sum < T ∧ ar = true then [(sizes.sum, T)] else []) := by
        injection hok with h
        exact h.symm
      subst hL
      by_cases hc : sizes.sum < T ∧ ar = true
      · rw [if_pos hc]
        constructor
        · refine List.chain'_append.mpr ⟨noover_loop_chain sizes 0, List.chain'_singleton _, ?_⟩
          intro x hx y hy
          simp only [List.head?_cons, Option.mem_some_iff] at hy
          subst hy
          have hlast := noover_loop_last sizes 0 x (Option.mem_def.mp hx)
          simp only [zero_add] at hlast
          exact hlast.symm
        · intro r hr
          rcases List.mem_append.mp hr with hr | hr
          · have hm := noover_loop_mem sizes 0 r hpos hr
            constructor
            · exact hm.2.1
            · have := hm.2.2
              omega
          · simp only [List.mem_singleton] at hr
            subst hr
            exact ⟨hc.1, le_refl _⟩
      · rw [if_neg hc, List.append_nil]
        constructor
        · exact noover_loop_chain sizes 0
        · intro r hr
          have hm := noover_loop_mem sizes 0 r hpos hr
          refine ⟨hm.2.1, ?_⟩
          have := hm.2.2
          omega
    · have hlt : T < sizes.sum := not_le.mp hsum
      cases ce with
      | false =>
        rw [build_slices_overflow_error T sizes ar hlt] at hok
        simp at hok
      | true =>
        rw [build_slices_clip T sizes ar hlt] at hok
        have hL : L = clip_loop T 0 sizes := by
          injection hok with h
          exact h.symm
        subst hL
        refine ⟨clip_loop_chain T sizes 0, ?_⟩
        intro r hr
        have hm := clip_loop_mem T sizes 0 r hr
        exact ⟨hm.2.1, hm.2.2⟩
  refine ⟨main.1, chain_mono_pairwise L main.1 (fun r hr => (main.2 r hr).1), ?_⟩
  rw [List.all_eq_true]
  intro r hr
  simpa using main.2 r hr

/-- C5 witness: the plan for extent 10, sizes [3,3,3], no remainder. -/
theorem C5_witness :
    List.Chain' (fun a b : Int × Int => b.1 = a.2) [(0, 3), (3, 6), (6, 9)] ∧
    List.Pairwise (fun a b : Int × Int => a.1 < b.1) [(0, 3), (3, 6), (6, 9)] ∧
    ([(0, 3), (3, 6), (6, 9)] : List (Int × Int)).all
      (fun r => r.1 < r.2 ∧ r.2 ≤ 10) = true :=
  C5_plan_invariants 10 [3, 3, 3] false false [(0, 3), (3, 6), (6, 9)]
    (by decide) (by decide) (by decide)

/-- C6 counterexample: called directly with a negative count, the distributor
raises nothing at all and silently returns the empty list. -/
theorem C6_counterexample : sizes_average 10 (-1) = Except.ok [] := by decide

/-- C6 amended: the count validation lives in the caller process_one_image,
which raises the ValidationError for any count at or below 0 before the
distributor runs; the distributor itself returns the empty list for a
negative count and raises ZeroDivisionError for a zero count. -/
theorem C6_amended_validation_in_caller (T N : Int) (pixels : List Int) (h : N ≤ 0) :
    resolve_sizes Mode.average T N pixels =
      .error (.validation "average 模式需要 --count 且 > 0") ∧
    (N < 0 → sizes_average T N = .ok []) ∧
    (N = 0 → sizes_average T N = .error .zeroDivision) := by
  refine ⟨?_, ?_, ?_⟩
  · simp [resolve_sizes, h]
  · intro hneg
    unfold sizes_average
    rw [if_neg (by omega)]
    have h0 : N.toNat = 0 := Int.toNat_of_nonpos hneg.le
    simp [h0]
  · intro h0
    subst h0
    rfl

/-- C6 amended witness: count -1 with extent 10. -/
theorem C6_amended_witness :
    resolve_sizes Mode.average 10 (-1) [] =
      Except.error (.validation "average 模式需要 --count 且 > 0") ∧
    sizes_average 10 (-1) = Except.ok [] :=
  ⟨(C6_amended_validation_in_caller 10 (-1) [] (by decide)).1,
   (C6_amended_validation_in_caller 10 (-1) [] (by decide)).2.1 (by decide)⟩

/-- C7: the pixel-list parser returns the ordered parsed integers exactly
when at least one token remains after splitting, stripping and discarding
empties and every remaining token is all decimal digits with a strictly
positive value; otherwise it fails with a ValidationError that names the
offending token or reports the empty list. -/
theorem C7_parse_pixels_characterization (s : String) :
    ((pixel_tokens s ≠ [] ∧ ∀ p ∈ pixel_tokens s, is_digits p = true ∧ 0 < digits_to_nat p) →
      parse_pixels s = .ok ((pixel_tokens s).map (fun p => (digits_to_nat p : Int)))) ∧
    ((pixel_tokens s = [] ∨ ∃ p ∈ pixel_tokens s, ¬(is_digits p = true ∧ 0 < digits_to_nat p)) →
      ∃ m, parse_pixels s = .error (.validation m) ∧
        (m = "像素列表为空" ∨
          ∃ p ∈ pixel_tokens s, (m = "像素值必须为正整数: " ++ String.mk p ∨
            m = "像素值必须大于0: " ++ String.mk p) ∧
            ¬(is_digits p = true ∧ 0 < digits_to_nat p))) := by
  constructor
  · rintro ⟨hne, hall⟩
    unfold parse_pixels
    rw [parse_tokens_ok _ hall]
    dsimp only
    rw [if_neg (by simpa using hne)]
  · rintro (hemp | hbad)
    · refine ⟨"像素列表为空", ?_, Or.inl rfl⟩
      unfold parse_pixels
      rw [hemp]
      rfl
    · obtain ⟨m, herr, p, hp, hcase⟩ := parse_tokens_first_bad _ hbad
      refine ⟨m, ?_, Or.inr ⟨p, hp, hcase⟩⟩
      unfold parse_pixels
      rw [herr]

/-- C7 witness: the claim's accepted and rejected inputs. -/
theorem C7_witness :
    parse_pixels "3, 2,5" = Except.ok [3, 2, 5] ∧
    parse_pixels "3,-2,5" = Except.error (.validation "像素值必须为正整数: -2") ∧
    parse_pixels "abc" = Except.error (.validation "像素值必须为正整数: abc") ∧
    parse_pixels "" = Except.error (.validation "像素列表为空") ∧
    parse_pixels "0,1,2" = Except.error (.validation "像素值必须大于0: 0") := by
  refine ⟨?_, by decide, by decide, by decide, by decide⟩
  rw [(C7_parse_pixels_characterization "3, 2,5").1 (by decide)]
  decide

/-- C8 counterexample: the GUI task enumeration does apply the extension
check to a single picked file: a file named photo.txt is silently dropped
rather than enumerated. -/
theorem C8_counterexample :
    is_image_file "photo.txt" = false ∧
    list_image_tasks_file "photo.txt" = [] ∧
    list_image_tasks_file "photo.txt" ≠ ["photo.txt"] := by decide

/-- C8 amended: both surfaces apply the recognized-extension check to a
single input file; the command-line surface raises a ValidationError on an
unrecognized extension while the interactive surface silently enumerates no
tasks, and both enumerate exactly the one file when the extension is
recognized. -/
theorem C8_amended_extension_check_both_surfaces (path : String) :
    (is_image_file path = true →
      main_single_file_tasks path = .ok [path] ∧ list_image_tasks_file path = [path]) ∧
    (is_image_file path = false →
      main_single_file_tasks path =
        .error (.validation "输入必须是图片文件或包含图片的目录") ∧
      list_image_tasks_file path = []) := by
  constructor
  · intro h
    constructor
    · simp [main_single_file_tasks, h]
    · simp [list_image_tasks_file, h]
  · intro h
    constructor
    · simp [main_single_file_tasks, h]
    · simp [list_image_tasks_file, h]

/-- C8 amended witness: a recognized extension passes both surfaces. -/
theorem C8_amended_witness :
    main_single_file_tasks "a.jpg" = Except.ok ["a.jpg"] ∧
    list_image_tasks_file "a.jpg" = ["a.jpg"] :=
  (C8_amended_extension_check_both_surfaces "a.jpg").1 (by decide)

/-- C9: on every input the duplicated planner of the GUI returns the same
plans as the CLI planner and fails exactly when it fails. -/
theorem C9_cli_gui_build_slices_agree (T : Int) (sizes : List Int) (ar ce : Bool) :
    (∀ L, build_slices T sizes ar ce = .ok L ↔ gui_build_slices T sizes ar ce = .ok L) ∧
    (build_slices T sizes ar ce).isOk = (gui_build_slices T sizes ar ce).isOk := by
  unfold build_slices gui_build_slices
  rw [gui_clip_loop_eq T sizes 0, gui_noover_loop_eq sizes 0]
  by_cases h1 : sizes.sum > T
  · rw [if_pos h1, if_pos h1]
    by_cases h2 : ce = false
    · rw [if_pos h2, if_pos h2]
      constructor
      · intro L
        constructor <;> intro h <;> simp at h
      · rfl
    · rw [if_neg h2, if_neg h2]
      exact ⟨fun L => Iff.rfl, rfl⟩
  · rw [if_neg h1, if_neg h1]
    exact ⟨fun L => Iff.rfl, rfl⟩

/-- C9 witness: a clipped plan agreed on by both surfaces. -/
theorem C9_witness :
    gui_build_slices 400 [200, 200, 100] true true = Except.ok [(0, 200), (200, 400)] :=
  ((C9_cli_gui_build_slices_agree 400 [200, 200, 100] true true).1
    [(0, 200), (200, 400)]).mp (by decide)

/-- C10: feeding the distributor's output for extent T and count N into the
planner yields a plan of exactly min(N, T) ranges, for any flag values; when
N exceeds T the zero-sized entries produce zero-width ranges that the filter
removes, so strictly fewer parts than requested come out. -/
theorem C10_average_feed (T N : Int) (ar ce : Bool) (hT : 0 ≤ T) (hN : 0 < N) :
    ((sizes_average T N).bind (fun sizes => build_slices T sizes ar ce)).map List.length =
      .ok ((min N T).toNat) ∧
    (T < N → (min N T).toNat < N.toNat) := by
  obtain ⟨m, rfl⟩ : ∃ m : Nat, T = (m : Int) := ⟨T.toNat, (Int.toNat_of_nonneg hT).symm⟩
  obtain ⟨n, rfl⟩ : ∃ n : Nat, N = (n : Int) := ⟨N.toNat, (Int.toNat_of_nonneg hN.le).symm⟩
  have hn : 0 < n := by exact_mod_cast hN
  have hr : m % n < n := Nat.mod_lt m hn
  have hmin : (min (n : Int) (m : Int)).toNat = min n m := by
    rw [← Nat.cast_min, Int.toNat_ofNat]
  constructor
  · rw [sizes_average_nat m n hn]
    show (build_slices (m : Int) _ ar ce).map List.length = _
    have hsum := avg_list_sum m n hn
    unfold build_slices
    rw [if_neg (by rw [hsum]; exact lt_irrefl _)]
    dsimp only
    rw [if_neg (by rw [hsum]; rintro ⟨hlt, -⟩; exact lt_irrefl _ hlt)]
    simp only [Except.map, Except.ok.injEq]
    rw [noover_loop_filter_length, hmin]
    rw [List.filter_append, List.length_append]
    by_cases hcase : n ≤ m
    · have hb1 : ((0 : Int) < ((m / n : Nat) : Int) + 1) := by positivity
      have hb : ((0 : Int) < ((m / n : Nat) : Int)) := by
        exact_mod_cast Nat.div_pos hcase hn
      rw [List.filter_replicate, List.filter_replicate, if_pos (by simpa using hb1),
        if_pos (by simpa using hb)]
      simp only [List.length_replicate]
      omega
    · have hb0 : m / n = 0 := Nat.div_eq_of_lt (by omega)
      have hb1 : ((0 : Int) < ((m / n : Nat) : Int) + 1) := by positivity
      rw [List.filter_replicate, List.filter_replicate, if_pos (by simpa using hb1),
        if_neg (by simp [hb0])]
      simp only [List.length_replicate, List.length_nil]
      have hmm : m % n = m := Nat.mod_eq_of_lt (by omega)
      omega
  · intro hlt
    rw [hmin]
    have hmn : m < n := by exact_mod_cast hlt
    omega

/-- C10 witness: extent 3 split into 5 average parts gives only 3 ranges. -/
theorem C10_witness :
    ((sizes_average 3 5).bind (fun sizes => build_slices 3 sizes true false)).map List.length =
      Except.ok ((min (5 : Int) 3).toNat) ∧
    ((3 : Int) < 5 → (min (5 : Int) 3).toNat < (5 : Int).toNat) :=
  C10_average_feed 3 5 true false (by decide) (by decide)
